import Mathlib

/-!
Shallow embedding of the declarative form engine and HTTP hook layer of the
repository (src/form.tsx, src/useHttp.ts), together with proofs about the
behaviours claimed in the specification.

JavaScript runtime values are modelled by the inductive type `JSVal`
(`undefined` and `null` are distinct values, objects are association lists
whose key presence models `hasOwnProperty`).  Machine numbers never exceed
2^53 in the fragments we embed (at most 9 decimal digits are parsed at once),
so `Nat` models them exactly.
-/

set_option maxRecDepth 10000

namespace RefForm

/-- Model of a JavaScript runtime value as it flows through the form engine:
`undef` is `undefined`, `null` is `null`, objects are association lists in
insertion order. -/
inductive JSVal where
  | undef : JSVal
  | null : JSVal
  | bool : Bool → JSVal
  | num : Int → JSVal
  | str : String → JSVal
  | arr : List JSVal → JSVal
  | obj : List (String × JSVal) → JSVal

/-- Property read `o[k]` on an object modelled as an association list;
`none` models a key that is not an own property. -/
def objGet : List (String × JSVal) → String → Option JSVal
  | [], _ => none
  | (k', v') :: rest, k => if k' = k then some v' else objGet rest k

/-- Property write `{...o, [k]: v}` / `o[k] = v`: replaces the value of an
existing key in place, otherwise appends the key at the end (JavaScript
object insertion-order semantics). -/
def objSet : List (String × JSVal) → String → JSVal → List (String × JSVal)
  | [], k, v => [(k, v)]
  | (k', v') :: rest, k, v =>
      if k' = k then (k, v) :: rest else (k', v') :: objSet rest k v

theorem objGet_objSet_self (m : List (String × JSVal)) (k : String) (v : JSVal) :
    objGet (objSet m k v) k = some v := by
  induction m with
  | nil => simp [objSet, objGet]
  | cons hd tl ih =>
      obtain ⟨k', v'⟩ := hd
      by_cases h : k' = k
      · simp [objSet, objGet, h]
      · simp [objSet, objGet, h, ih]

theorem objGet_objSet_other (m : List (String × JSVal)) (k k' : String) (v : JSVal)
    (hne : k ≠ k') : objGet (objSet m k v) k' = objGet m k' := by
  induction m with
  | nil => simp [objSet, objGet, hne]
  | cons hd tl ih =>
      obtain ⟨k₀, v₀⟩ := hd
      by_cases h : k₀ = k
      · subst h
        simp [objSet, objGet, hne]
      · by_cases h' : k₀ = k'
        · simp [objSet, objGet, h, h', Ne.symm hne]
        · simp [objSet, objGet, h, h', ih]

/-!
## Card-number verification (src/form.tsx, `verifyCardNumber`)
-/

/-- Test card numbers that must always be rejected
(`invalidTestCards` in src/form.tsx). -/
def invalidTestCards : List String :=
  [ "4444333322221111", "2222444499996666", "4000000000000002",
    "5555555555554444", "4111111111111111", "4012888888881881",
    "378282246310005", "371449635398431", "4222222222222222",
    "5105105105105100", "6011111111111117" ]

/-- Six-digit BIN codes of Iranian banks (`iranianBankPrefixes` in
src/form.tsx, duplicates kept as in the source). -/
def iranianBankPrefixes : List String :=
  [ "585983", "627353", "502229", "639347", "502806", "504706", "502908",
    "589210", "502938", "589463", "504172", "505785", "505801", "585947",
    "507677", "581874", "589210", "589463", "603770", "639217", "610433",
    "991975", "622106", "627884", "639194", "627412", "627648", "207177",
    "627353", "585983", "627961", "603799", "170019", "628023", "639370",
    "639607", "636214", "636949", "639346", "639599", "639370", "639607",
    "627593" ]

/-- Removal of every non-digit character, modelling
`String(x).replace(\x7b regex \D \x7d, "")`. -/
def stripNonDigits (s : String) : String :=
  String.mk (s.data.filter Char.isDigit)

/-- Luhn accumulation loop of `verifyCardNumber`: the source iterates the
digit string from its last character to its first with a `shouldDouble`
toggle that starts `false`; here the loop runs over the reversed character
list carrying the toggle and the running sum. -/
def verifyCardLoop : List Char → Bool → Nat → Nat
  | [], _, sum => sum
  | c :: rest, shouldDouble, sum =>
      let digit := c.toNat - 48
      let digit := if shouldDouble then
          (if digit * 2 > 9 then digit * 2 - 9 else digit * 2) else digit
      verifyCardLoop rest (!shouldDouble) (sum + digit)

/-- Embedding of `verifyCardNumber` from src/form.tsx (string input; the
source's `!cardNumber` guard is the emptiness test for strings). -/
def verifyCardNumber (cardNumber : String) : Bool :=
  if cardNumber = "" then false
  else
    let digitsResult := stripNonDigits cardNumber
    if digitsResult.length ≠ 16 then false
    else if invalidTestCards.contains digitsResult then false
    else
      let code := String.mk (digitsResult.data.take 6)
      if ¬ iranianBankPrefixes.contains code then false
      else decide (verifyCardLoop digitsResult.data.reverse false 0 % 10 = 0)

/-- Luhn checksum as worded by the specification: digits are consumed from
the right, every second one is doubled, and 9 is subtracted when the doubled
digit exceeds 9.  The argument list holds the digit characters rightmost
first. -/
def luhnSpecSum : List Char → Nat
  | [] => 0
  | [d] => d.toNat - 48
  | d1 :: d2 :: rest =>
      let a := d1.toNat - 48
      let b := (d2.toNat - 48) * 2
      a + (if b > 9 then b - 9 else b) + luhnSpecSum rest

/-- Acceptance predicate for card numbers exactly as the specification
states it. -/
def cardSpecHolds (c : String) : Prop :=
  let d := stripNonDigits c
  d.length = 16 ∧
  d ∉ invalidTestCards ∧
  String.mk (d.data.take 6) ∈ iranianBankPrefixes ∧
  luhnSpecSum d.data.reverse % 10 = 0

instance (c : String) : Decidable (cardSpecHolds c) := by
  unfold cardSpecHolds
  infer_instance

theorem verifyCardLoop_eq_luhnSpecSum (l : List Char) :
    ∀ sum : Nat, verifyCardLoop l false sum = sum + luhnSpecSum l := by
  induction l using luhnSpecSum.induct with
  | case1 => intro sum; simp [verifyCardLoop, luhnSpecSum]
  | case2 d => intro sum; simp [verifyCardLoop, luhnSpecSum]
  | case3 d1 d2 rest ih =>
      intro sum
      simp [verifyCardLoop, luhnSpecSum]
      rw [ih]
      omega

/-- C2: `verifyCardNumber` returns `true` exactly when the stripped digit
string has 16 digits, is not a known test card, starts with an Iranian bank
BIN and passes the Luhn checksum; in particular it returns `false` on empty
input, which fails the 16-digit condition. -/
theorem verifyCardNumber_correct (c : String) :
    verifyCardNumber c = true ↔ cardSpecHolds c := by
  by_cases h0 : c = ""
  · subst h0
    decide
  · unfold verifyCardNumber cardSpecHolds
    simp only [h0, if_false]
    split_ifs with h1 h2 h3
    · simp [h1]
    · simp_all [verifyCardLoop_eq_luhnSpecSum]
    · simp_all [verifyCardLoop_eq_luhnSpecSum]
    · simp_all [verifyCardLoop_eq_luhnSpecSum]

/-!
## Calculator modal formula editing (src/form.tsx, `onFormulaChange`)
-/

/-- Kinds of calculator buttons (`ButtonItem["type"]` in src/form.tsx). -/
inductive CalcButtonType where
  | insert : CalcButtonType
  | delete : CalcButtonType
  | clear : CalcButtonType

/-- Embedding of `onFormulaChange`: reads the current `formulas` field value
(possibly `undefined`, defaulted to `[]`), pushes / pops / clears, and the
result is written back with `form.setFieldValue`.  The function returns the
new token list. -/
def onFormulaChange (currentFormulas : Option (List String)) (value : String)
    (ty : CalcButtonType) : List String :=
  let newFormulas := currentFormulas.getD []
  match ty with
  | .insert => newFormulas ++ [value]
  | .delete => newFormulas.dropLast
  | .clear => []

/-- C9: insert appends exactly the pressed token, delete drops the last
token, clear empties the formula; hence delete right after insert restores
the previous formula and clear is idempotent. -/
theorem onFormulaChange_correct (cur : Option (List String)) (v w : String) :
    onFormulaChange cur v .insert = cur.getD [] ++ [v] ∧
    onFormulaChange cur v .delete = (cur.getD []).dropLast ∧
    onFormulaChange cur v .clear = [] ∧
    onFormulaChange (some (onFormulaChange cur v .insert)) w .delete = cur.getD [] ∧
    onFormulaChange (some (onFormulaChange cur v .clear)) w .clear =
      onFormulaChange cur v .clear := by
  refine ⟨rfl, rfl, rfl, ?_, rfl⟩
  simp [onFormulaChange]

/-!
## Field descriptors (src/form.tsx, `BaseFormField` and friends)
-/

/-- Value of a `disabled` / `hidden` schema attribute, which in the source is
`boolean | ((options) => boolean) | undefined`.  `fn` stands for a
function-valued predicate; as a JavaScript value a function is truthy. -/
inductive FieldFlag where
  | undef : FieldFlag
  | bool : Bool → FieldFlag
  | fn : FieldFlag
  deriving DecidableEq

/-- Truthiness of a `disabled` / `hidden` attribute when it is used directly
in a boolean context (`!f.disabled` etc.). -/
def FieldFlag.jsTruthy : FieldFlag → Bool
  | .undef => false
  | .bool b => b
  | .fn => true

/-- Whether the attribute is the static literal `true` (the reading the
specification calls "statically disabled/hidden"). -/
def FieldFlag.staticTrue : FieldFlag → Bool
  | .bool b => b
  | _ => false

/-- Schema field descriptor: the attributes of `BaseFormField` that the
embedded operations consult, plus the nested collapse-group fields reached
through `options.extraProps.fields`. -/
inductive FieldDesc where
  | mk (name : String) (readOnly : Bool) (disabled : FieldFlag)
      (hidden : FieldFlag) (endPoint : Bool) (nested : List FieldDesc)

def FieldDesc.name : FieldDesc → String
  | .mk n _ _ _ _ _ => n

def FieldDesc.readOnly : FieldDesc → Bool
  | .mk _ r _ _ _ _ => r

def FieldDesc.disabled : FieldDesc → FieldFlag
  | .mk _ _ d _ _ _ => d

def FieldDesc.hidden : FieldDesc → FieldFlag
  | .mk _ _ _ h _ _ => h

def FieldDesc.endPoint : FieldDesc → Bool
  | .mk _ _ _ _ e _ => e

/-- Embedding of `fieldsList` from `FormBuilder`: flattens collapse-group
fields, keeping each field before its nested children
(`fields.flatMap(field => [field, ...nestedFields])`). -/
def fieldsList : List FieldDesc → List FieldDesc
  | [] => []
  | .mk n r d h e s :: fs => .mk n r d h e s :: (fieldsList s ++ fieldsList fs)

/-!
## Row grouping (src/form.tsx, `groupFields`)
-/

/-- Model of `rows.at(-1)?.push(field)`: appends the field to the last row,
and does nothing on an empty list of rows (optional chaining). -/
def jsPushLast : List (List FieldDesc) → FieldDesc → List (List FieldDesc)
  | [], _ => []
  | [row], f => [row ++ [f]]
  | row :: rows, f => row :: jsPushLast rows f

/-- Body of the `reduce` callback in `groupFields`. -/
def groupStep (rows : List (List FieldDesc)) (f : FieldDesc) : List (List FieldDesc) :=
  let rows' := jsPushLast rows f
  if f.endPoint then rows' ++ [[]] else rows'

/-- Embedding of `groupFields`: reduce starting from `[[]]`, then drop empty
rows. -/
def groupFields (fields : List FieldDesc) : List (List FieldDesc) :=
  (fields.foldl groupStep [[]]).filter (fun row => row.length > 0)

/-- Reference splitter: a row ends exactly after each field whose
`layout.endPoint` flag is set, and a trailing boundary with no following
fields produces no extra row. -/
def splitAtEndPoints : List FieldDesc → List (List FieldDesc)
  | [] => []
  | f :: fs =>
      if f.endPoint then [f] :: splitAtEndPoints fs
      else
        match splitAtEndPoints fs with
        | [] => [[f]]
        | row :: rows => (f :: row) :: rows

/-- Helper describing how an open (uncommitted) row is prepended to the
rows produced by the remaining fields. -/
def prependRow (cur : List FieldDesc) : List (List FieldDesc) → List (List FieldDesc)
  | [] => match cur with
          | [] => []
          | _ :: _ => [cur]
  | row :: rows => (cur ++ row) :: rows

theorem jsPushLast_append (acc : List (List FieldDesc)) (cur : List FieldDesc)
    (f : FieldDesc) : jsPushLast (acc ++ [cur]) f = acc ++ [cur ++ [f]] := by
  induction acc with
  | nil => rfl
  | cons r rs ih =>
      cases rs with
      | nil => simp [jsPushLast]
      | cons r' rs' => simpa [jsPushLast] using ih

theorem prependRow_nil (rows : List (List FieldDesc)) :
    prependRow [] rows = rows := by
  cases rows <;> simp [prependRow]

theorem foldl_groupStep_split (fs : List FieldDesc) :
    ∀ acc cur, (fs.foldl groupStep (acc ++ [cur])).filter (fun row => row.length > 0) =
      acc.filter (fun row => row.length > 0) ++ prependRow cur (splitAtEndPoints fs) := by
  induction fs with
  | nil =>
      intro acc cur
      cases cur <;> simp [splitAtEndPoints, prependRow, List.filter_append]
  | cons f fs ih =>
      intro acc cur
      have hstep : groupStep (acc ++ [cur]) f =
          if f.endPoint then (acc ++ [cur ++ [f]]) ++ [[]] else acc ++ [cur ++ [f]] := by
        simp [groupStep, jsPushLast_append]
      by_cases he : f.endPoint = true
      · rw [List.foldl_cons, hstep, if_pos he]
        rw [ih (acc ++ [cur ++ [f]]) []]
        simp only [splitAtEndPoints, he, if_true, List.filter_append, prependRow_nil]
        simp [prependRow]
      · rw [List.foldl_cons, hstep, if_neg he]
        rw [ih]
        have he' : f.endPoint = false := by simpa using he
        rw [splitAtEndPoints, he']
        simp only [Bool.false_eq_true, if_false]
        cases hsplit : splitAtEndPoints fs with
        | nil => cases cur <;> simp [prependRow]
        | cons row rows => simp [prependRow]

theorem groupFields_eq_splitAtEndPoints (fields : List FieldDesc) :
    groupFields fields = splitAtEndPoints fields := by
  have h := foldl_groupStep_split fields [] []
  simpa [groupFields, prependRow_nil] using h

theorem splitAtEndPoints_flatten (fields : List FieldDesc) :
    (splitAtEndPoints fields).flatten = fields := by
  induction fields with
  | nil => rfl
  | cons f fs ih =>
      by_cases he : f.endPoint = true
      · simp [splitAtEndPoints, he, ih]
      · simp only [splitAtEndPoints, he, Bool.false_eq_true, if_false]
        cases hsplit : splitAtEndPoints fs with
        | nil => simp [hsplit] at ih; simp [ih]
        | cons row rows => rw [hsplit] at ih; simpa using ih

theorem splitAtEndPoints_ne_nil (fields : List FieldDesc) :
    ∀ row ∈ splitAtEndPoints fields, row ≠ [] := by
  induction fields with
  | nil => simp [splitAtEndPoints]
  | cons f fs ih =>
      by_cases he : f.endPoint = true
      · simp only [splitAtEndPoints, he, if_true]
        intro row hrow
        rcases List.mem_cons.mp hrow with h | h
        · subst h; simp
        · exact ih row h
      · simp only [splitAtEndPoints, he, Bool.false_eq_true, if_false]
        cases hsplit : splitAtEndPoints fs with
        | nil => simp
        | cons r rs =>
            intro row hrow
            rcases List.mem_cons.mp hrow with h | h
            · subst h; simp
            · exact ih row (by rw [hsplit]; exact List.mem_cons_of_mem _ h)

theorem splitAtEndPoints_dropLast (fields : List FieldDesc) :
    ∀ row ∈ splitAtEndPoints fields, ∀ f ∈ row.dropLast, f.endPoint = false := by
  induction fields with
  | nil => simp [splitAtEndPoints]
  | cons f fs ih =>
      by_cases he : f.endPoint = true
      · simp only [splitAtEndPoints, he, if_true]
        intro row hrow
        rcases List.mem_cons.mp hrow with h | h
        · subst h; simp
        · exact ih row h
      · simp only [splitAtEndPoints, he, Bool.false_eq_true, if_false]
        cases hsplit : splitAtEndPoints fs with
        | nil =>
            intro row hrow
            rcases List.mem_cons.mp hrow with h | h
            · subst h; simp
            · simp at h
        | cons r rs =>
            intro row hrow
            rcases List.mem_cons.mp hrow with h | h
            · subst h
              have hr : r ≠ [] := by
                apply splitAtEndPoints_ne_nil fs
                rw [hsplit]; exact List.mem_cons_self _ _
              intro g hg
              obtain ⟨b, t, rfl⟩ : ∃ b t, r = b :: t := by
                cases r with
                | nil => exact absurd rfl hr
                | cons b t => exact ⟨b, t, rfl⟩
              rw [List.dropLast_cons₂] at hg
              rcases List.mem_cons.mp hg with h' | h'
              · subst h'
                simpa using he
              · exact ih (b :: t) (by rw [hsplit]; exact List.mem_cons_self _ _) g h'
            · exact ih row (by rw [hsplit]; exact List.mem_cons_of_mem _ h)

theorem splitAtEndPoints_boundary (fields : List FieldDesc) :
    ∀ pre row post, splitAtEndPoints fields = pre ++ row :: post → post ≠ [] →
      ∃ f, row.getLast? = some f ∧ f.endPoint = true := by
  induction fields with
  | nil =>
      intro pre row post h
      simp [splitAtEndPoints] at h
  | cons f fs ih =>
      intro pre row post hsplit hpost
      by_cases he : f.endPoint = true
      · rw [splitAtEndPoints, if_pos he] at hsplit
        cases pre with
        | nil =>
            simp only [List.nil_append, List.cons.injEq] at hsplit
            exact ⟨f, by rw [← hsplit.1]; simp, he⟩
        | cons p pre' =>
            simp only [List.cons_append, List.cons.injEq] at hsplit
            exact ih pre' row post hsplit.2 hpost
      · rw [splitAtEndPoints, if_neg he] at hsplit
        cases hfs : splitAtEndPoints fs with
        | nil =>
            rw [hfs] at hsplit
            cases pre with
            | nil =>
                simp only [List.nil_append, List.cons.injEq] at hsplit
                exact absurd hsplit.2.symm hpost
            | cons p pre' =>
                simp only [List.cons_append, List.cons.injEq] at hsplit
                exact absurd hsplit.2 (by simp)
        | cons r rs =>
            rw [hfs] at hsplit
            cases pre with
            | nil =>
                simp only [List.nil_append, List.cons.injEq] at hsplit
                obtain ⟨hrow, hrs⟩ := hsplit
                have hr : r ≠ [] := by
                  apply splitAtEndPoints_ne_nil fs
                  rw [hfs]; exact List.mem_cons_self _ _
                obtain ⟨g, hg, hge⟩ := ih [] r rs (by simpa using hfs) (by
                  intro hnil; rw [hrs] at hnil; exact hpost hnil)
                refine ⟨g, ?_, hge⟩
                rw [← hrow]
                obtain ⟨b, t, rfl⟩ : ∃ b t, r = b :: t := by
                  cases r with
                  | nil => exact absurd rfl hr
                  | cons b t => exact ⟨b, t, rfl⟩
                rwa [List.getLast?_cons_cons]
            | cons p pre' =>
                simp only [List.cons_append, List.cons.injEq] at hsplit
                exact ih (r :: pre') row post (by rw [hfs, hsplit.2]; simp) hpost

/-- C10: `groupFields` flattens back to the original field list, produces no
empty row, every field placed before the end of a row has `endPoint` unset,
and every row followed by another row ends in a field whose `endPoint` flag
is set. -/
theorem groupFields_correct (fields : List FieldDesc) :
    (groupFields fields).flatten = fields ∧
    (∀ row ∈ groupFields fields, row ≠ []) ∧
    (∀ row ∈ groupFields fields, ∀ f ∈ row.dropLast, f.endPoint = false) ∧
    (∀ pre row post, groupFields fields = pre ++ row :: post → post ≠ [] →
      ∃ f, row.getLast? = some f ∧ f.endPoint = true) := by
  rw [groupFields_eq_splitAtEndPoints]
  exact ⟨splitAtEndPoints_flatten fields, splitAtEndPoints_ne_nil fields,
    splitAtEndPoints_dropLast fields, splitAtEndPoints_boundary fields⟩

/-!
## Dependency resolver (src/form.tsx, `FormFieldsRenderer` watch selector)
-/

/-- Body of the `forEach` in the `Form.useWatch` selector: copies the value
of a declared dependency into the result when the form values have that key
as an own property. -/
def depStep (values : List (String × JSVal)) (result : List (String × JSVal))
    (key : String) : List (String × JSVal) :=
  match objGet values key with
  | some v => objSet result key v
  | none => result

/-- Embedding of the `Form.useWatch` selector of `FormFieldsRenderer`: with
no declared dependencies (absent or empty list) the source returns `() =>`
followed by an empty object body, a function with no own form-value entries,
modelled here as the empty object; otherwise it copies exactly the declared
dependencies that are present in the form values. -/
def depWatchSelector (dependencies : Option (List String))
    (values : List (String × JSVal)) : List (String × JSVal) :=
  match dependencies with
  | none => []
  | some [] => []
  | some deps => deps.foldl (depStep values) []

theorem foldl_depStep_get (values : List (String × JSVal)) (deps : List String) :
    ∀ (acc : List (String × JSVal)) (k : String),
      objGet (deps.foldl (depStep values) acc) k =
        if k ∈ deps ∧ (objGet values k).isSome then objGet values k
        else objGet acc k := by
  induction deps with
  | nil => intro acc k; simp
  | cons d ds ih =>
      intro acc k
      rw [List.foldl_cons, ih]
      by_cases hmem : k ∈ ds ∧ (objGet values k).isSome
      · rw [if_pos hmem, if_pos ⟨List.mem_cons_of_mem d hmem.1, hmem.2⟩]
      · rw [if_neg hmem]
        by_cases hk : k = d
        · subst hk
          cases hv : objGet values k with
          | none => simp [depStep, hv]
          | some v => simp [depStep, hv, objGet_objSet_self]
        · have hcond : ¬ (k ∈ d :: ds ∧ (objGet values k).isSome) := by
            intro ⟨h1, h2⟩
            rcases List.mem_cons.mp h1 with h | h
            · exact hk h
            · exact hmem ⟨h, h2⟩
          rw [if_neg hcond]
          unfold depStep
          cases hv : objGet values d with
          | none => rfl
          | some v => exact objGet_objSet_other acc d k v (Ne.symm hk)

/-- C1: the values object handed to the `hidden` / `disabled` callbacks of a
field with a declared dependency list has an entry for exactly the declared
dependencies that are own properties of the current form values, with the
same value, and a field with no declared dependencies gets an object with no
form values at all. -/
theorem depWatchSelector_correct (deps : List String)
    (values : List (String × JSVal)) (k : String) :
    objGet (depWatchSelector (some deps) values) k =
      (if k ∈ deps ∧ (objGet values k).isSome then objGet values k else none) ∧
    depWatchSelector none values = [] ∧
    depWatchSelector (some []) values = [] := by
  refine ⟨?_, rfl, rfl⟩
  cases deps with
  | nil => simp [depWatchSelector, objGet]
  | cons d ds =>
      rw [show depWatchSelector (some (d :: ds)) values =
        (d :: ds).foldl (depStep values) [] from rfl]
      rw [foldl_depStep_get]
      rfl

/-!
## Submit-value filtering (src/form.tsx, `handleSubmit`)
-/

def JSVal.isUndef : JSVal → Bool
  | .undef => true
  | _ => false

/-- Model of `key.startsWith("__")` (the `IgnorablePattern` test): the first
two characters of the key are underscores. -/
def isIgnorableKey (key : String) : Bool :=
  key.data.take 2 == ['_', '_']

/-- Body of the `reduce` in `handleSubmit`: drops `__`-prefixed keys and
`undefined` values, keeps the rest via object spread. -/
def submitStep (acc : List (String × JSVal)) (kv : String × JSVal) :
    List (String × JSVal) :=
  if isIgnorableKey kv.1 || kv.2.isUndef then acc else objSet acc kv.1 kv.2

/-- Embedding of the value cleaning at the start of `handleSubmit`: the raw
form values (as `Object.entries` pairs) reduced into a fresh object. -/
def submittedValues (rawValues : List (String × JSVal)) : List (String × JSVal) :=
  rawValues.foldl submitStep []

theorem foldl_submitStep_not_mem (raw : List (String × JSVal)) :
    ∀ (acc : List (String × JSVal)) (k : String), k ∉ raw.map Prod.fst →
      objGet (raw.foldl submitStep acc) k = objGet acc k := by
  induction raw with
  | nil => intro acc k _; rfl
  | cons kv rest ih =>
      intro acc k hk
      obtain ⟨k', v'⟩ := kv
      simp only [List.map_cons, List.mem_cons, not_or] at hk
      rw [List.foldl_cons, ih _ k hk.2]
      unfold submitStep
      split
      · rfl
      · exact objGet_objSet_other acc k' k v' (fun h => hk.1 h.symm)

theorem foldl_submitStep_get (raw : List (String × JSVal)) :
    ∀ (acc : List (String × JSVal)) (k : String) (v : JSVal),
      (raw.map Prod.fst).Nodup → objGet acc k = none →
      (objGet (raw.foldl submitStep acc) k = some v ↔
        ((k, v) ∈ raw ∧ isIgnorableKey k = false ∧ v.isUndef = false)) := by
  induction raw with
  | nil =>
      intro acc k v _ hacc
      simp [hacc]
  | cons kv rest ih =>
      intro acc k v hnodup hacc
      obtain ⟨k', v'⟩ := kv
      simp only [List.map_cons, List.nodup_cons] at hnodup
      by_cases hk : k = k'
      · subst hk
        rw [List.foldl_cons, foldl_submitStep_not_mem rest _ k hnodup.1]
        unfold submitStep
        constructor
        · intro h
          split at h
          · rw [hacc] at h; exact absurd h (by simp)
          · rw [objGet_objSet_self] at h
            rename_i hcond
            simp only [Bool.or_eq_true, not_or, Bool.not_eq_true] at hcond
            injection h with h
            subst h
            exact ⟨List.mem_cons_self _ _, hcond.1, hcond.2⟩
        · intro ⟨hmem, hpre, hund⟩
          have hv : v' = v := by
            rcases List.mem_cons.mp hmem with h | h
            · injection h with _ h; exact h.symm
            · exact absurd (List.mem_map_of_mem Prod.fst h) hnodup.1
          subst hv
          have hcond : ¬ ((isIgnorableKey k || JSVal.isUndef v') = true) := by
            simp only [Bool.or_eq_true, not_or]
            exact ⟨by simp [hpre], by simp [hund]⟩
          rw [if_neg hcond]
          exact objGet_objSet_self acc k v'
      · rw [List.foldl_cons]
        have hacc' : objGet (submitStep acc (k', v')) k = none := by
          unfold submitStep
          split
          · exact hacc
          · rw [objGet_objSet_other acc k' k v' (fun h => hk h.symm), hacc]
        rw [ih _ k v hnodup.2 hacc']
        constructor
        · intro ⟨hmem, h2, h3⟩; exact ⟨List.mem_cons_of_mem _ hmem, h2, h3⟩
        · intro ⟨hmem, h2, h3⟩
          rcases List.mem_cons.mp hmem with h | h
          · injection h with h _; exact absurd h hk
          · exact ⟨h, h2, h3⟩

/-- C8: with distinct raw keys (as `Object.entries` of an object always
yields), the cleaned values passed to `onSubmit` contain exactly the raw
entries whose key does not start with `__` and whose value is defined. -/
theorem submittedValues_correct (raw : List (String × JSVal))
    (hnodup : (raw.map Prod.fst).Nodup) (k : String) (v : JSVal) :
    objGet (submittedValues raw) k = some v ↔
      ((k, v) ∈ raw ∧ isIgnorableKey k = false ∧ v.isUndef = false) :=
  foldl_submitStep_get raw [] k v hnodup rfl

/-- C8 witness: a concrete evaluation of the cleaned submit values. -/
theorem submittedValues_correct_witness :
    objGet (submittedValues
        [("amount", JSVal.str "100"), ("__buttons", JSVal.str "x"),
         ("note", JSVal.undef)]) "amount" = some (JSVal.str "100") :=
  (submittedValues_correct
    [("amount", JSVal.str "100"), ("__buttons", JSVal.str "x"),
     ("note", JSVal.undef)] (by decide) "amount" (JSVal.str "100")).mpr
    ⟨by simp, by decide, by decide⟩

/-!
## HTTP hook error unwrapping (src/useHttp.ts)
-/

/-- Truthiness of a JavaScript value (as used by the `||` fallback in the
mutation hooks).  Numbers are modelled by `Int`, so the `NaN` corner of
number truthiness does not arise in the embedded code paths. -/
def JSVal.toTruthy : JSVal → Bool
  | .undef => false
  | .null => false
  | .bool b => b
  | .num n => n != 0
  | .str s => !(s == "")
  | .arr _ => true
  | .obj _ => true

/-- Failure observed in the `catch` blocks of the hooks: either a value that
is `instanceof Error` (with its `message` and the optional
`response.data` attached by the HTTP client), or any other thrown value. -/
inductive JSFailure where
  | jsError (message : String) (responseData : Option JSVal) : JSFailure
  | nonError (value : JSVal) : JSFailure

/-- Value rethrown by `useGet`'s catch block:
`throw (error as any).response?.data` for an `Error`, the failure itself
otherwise. -/
def useGetRejection : JSFailure → JSVal
  | .jsError _ responseData => responseData.getD JSVal.undef
  | .nonError value => value

/-- Value rethrown by `usePost`'s catch block:
`throw (error as any).response?.data || error.message` for an `Error`, the
failure itself otherwise. -/
def usePostRejection : JSFailure → JSVal
  | .jsError message responseData =>
      let d := responseData.getD JSVal.undef
      if d.toTruthy then d else JSVal.str message
  | .nonError value => value

/-- Value rethrown by `usePut`'s catch block (same text as `usePost`). -/
def usePutRejection : JSFailure → JSVal
  | .jsError message responseData =>
      let d := responseData.getD JSVal.undef
      if d.toTruthy then d else JSVal.str message
  | .nonError value => value

/-- Value rethrown by `usePatch`'s catch block (same text as `usePost`). -/
def usePatchRejection : JSFailure → JSVal
  | .jsError message responseData =>
      let d := responseData.getD JSVal.undef
      if d.toTruthy then d else JSVal.str message
  | .nonError value => value

/-- Value rethrown by `useDelete`'s catch block (same text as `usePost`). -/
def useDeleteRejection : JSFailure → JSVal
  | .jsError message responseData =>
      let d := responseData.getD JSVal.undef
      if d.toTruthy then d else JSVal.str message
  | .nonError value => value

/-- C5 counterexample: for an `Error` with no response body, `useGet` rejects
with `undefined` instead of falling back to the error's message, so the five
hooks do not unwrap errors consistently. -/
theorem useGetRejection_no_message_fallback :
    useGetRejection (.jsError "Network Error" none) = JSVal.undef ∧
    useGetRejection (.jsError "Network Error" none) ≠ JSVal.str "Network Error" ∧
    usePostRejection (.jsError "Network Error" none) = JSVal.str "Network Error" := by
  refine ⟨rfl, ?_, rfl⟩
  simp [useGetRejection]

/-- C5 amended: the four mutation hooks unwrap identically — response body
when it is truthy, otherwise the error message — while `useGet` rejects with
the response body alone (`undefined` when absent, never the message), and
every hook rethrows a non-`Error` failure unchanged. -/
theorem httpHooks_error_unwrap (f : JSFailure) (msg : String) (rd v : JSVal) :
    usePostRejection f = usePutRejection f ∧
    usePostRejection f = usePatchRejection f ∧
    usePostRejection f = useDeleteRejection f ∧
    (rd.toTruthy = true → usePostRejection (.jsError msg (some rd)) = rd) ∧
    (rd.toTruthy = false → usePostRejection (.jsError msg (some rd)) = JSVal.str msg) ∧
    usePostRejection (.jsError msg none) = JSVal.str msg ∧
    useGetRejection (.jsError msg (some rd)) = rd ∧
    useGetRejection (.jsError msg none) = JSVal.undef ∧
    useGetRejection (.nonError v) = v ∧
    usePostRejection (.nonError v) = v := by
  refine ⟨?_, ?_, ?_, ?_, ?_, rfl, rfl, rfl, rfl, rfl⟩
  · cases f <;> rfl
  · cases f <;> rfl
  · cases f <;> rfl
  · intro h; simp [usePostRejection, h]
  · intro h; simp [usePostRejection, h]

/-- C5 amended witness: the hypotheses of `httpHooks_error_unwrap`
discharged at concrete failures. -/
theorem httpHooks_error_unwrap_witness :
    usePostRejection (.jsError "boom" (some (JSVal.str "body"))) = JSVal.str "body" ∧
    usePostRejection (.jsError "boom" (some (JSVal.str ""))) = JSVal.str "boom" := by
  have h := httpHooks_error_unwrap (.jsError "boom" (some (JSVal.str "body")))
    "boom" (JSVal.str "body") JSVal.undef
  have h' := httpHooks_error_unwrap (.jsError "boom" (some (JSVal.str "")))
    "boom" (JSVal.str "") JSVal.undef
  exact ⟨h.2.2.2.1 (by decide), h'.2.2.2.2.1 (by decide)⟩

/-!
## IBAN ISO 7064 mod-97 validation (src/form.tsx)

The source loop keeps a string `remainder`; each iteration takes its first
nine characters, runs JavaScript `parseInt(block, 10)` on them and prepends
`block mod 97` (as a decimal string) to the rest.  `parseInt` returns `NaN`
whenever the block does not begin with a digit, and a `number + string`
expression then concatenates the three-character string `"NaN"`.  The loop
is embedded with explicit fuel so that non-termination is observable as
`none` for every fuel value.
-/

/-- JavaScript `parseInt(s, 10)` restricted to the strings that occur here
(no sign, no leading whitespace): parses the maximal leading digit run and
yields `none` (for `NaN`) when there is none. -/
def parseIntJS (s : List Char) : Option Nat :=
  match s.takeWhile Char.isDigit with
  | [] => none
  | ds => some (ds.foldl (fun n c => 10 * n + (c.toNat - 48)) 0)

/-- One iteration of the `while` loop of `ibanISO7064Mod97Validator`:
`remainder = (parseInt(block, 10) % 97) + remainder.slice(block.length)`. -/
def ibanStep (remainder : List Char) : List Char :=
  let block := remainder.take 9
  let rest := remainder.drop block.length
  match parseIntJS block with
  | some n => (Nat.repr (n % 97)).data ++ rest
  | none => ['N', 'a', 'N'] ++ rest

/-- The `while (remainder.length > 2)` loop with explicit fuel; `none`
means the fuel was exhausted with the guard still true. -/
def ibanLoop : Nat → List Char → Option (List Char)
  | 0, r => if r.length > 2 then none else some r
  | n + 1, r => if r.length > 2 then ibanLoop n (ibanStep r) else some r

/-- Final check `parseInt(remainder, 10) % 97 === 1` (false when the
remaining string parses to `NaN`). -/
def ibanFinal (r : List Char) : Bool :=
  match parseIntJS r with
  | some n => n % 97 == 1
  | none => false

/-- Embedding of `ibanISO7064Mod97Validator` with fuel: `some b` when the
loop finishes and the final check yields `b`, `none` when the loop is still
running after `fuel` iterations. -/
def ibanISO7064Mod97Validator (iban : List Char) (fuel : Nat) : Option Bool :=
  match ibanLoop fuel iban with
  | none => none
  | some r => some (ibanFinal r)

/-- Outcome of the IBAN validation rule promise. -/
inductive IbanOutcome where
  | resolve : IbanOutcome
  | rejectLength : IbanOutcome
  | rejectInvalid : IbanOutcome
  deriving DecidableEq

/-- Embedding of the validator inside `ibanNumberValidationRules`: empty
values resolve, wrong lengths reject with the length message, and otherwise
the mod-97 check decides, `none` standing for a computation that has not
finished within `fuel` loop iterations. -/
def ibanRule (value : List Char) (fuel : Nat) : Option IbanOutcome :=
  if value.length = 0 then some .resolve
  else
    let upperVal := value.map Char.toUpper
    let iban := if upperVal.take 2 = ['I', 'R'] then upperVal
                else ['I', 'R'] ++ upperVal
    if value.length ≠ 24 ∧ value.length ≠ 26 then some .rejectLength
    else
      match ibanISO7064Mod97Validator iban fuel with
      | none => none
      | some ok => some (if ok then .resolve else .rejectInvalid)

theorem ibanStep_nan : ibanStep ['N', 'a', 'N'] = ['N', 'a', 'N'] := rfl

theorem ibanLoop_nan (n : Nat) : ibanLoop n ['N', 'a', 'N'] = none := by
  induction n with
  | zero => rfl
  | succ n ih =>
      rw [show ibanLoop (n + 1) ['N', 'a', 'N'] =
        ibanLoop n (ibanStep ['N', 'a', 'N']) from rfl, ibanStep_nan]
      exact ih

/-- Sample 24-character digit value fed to the rule (so the rule prepends
`IR` before validating). -/
def sampleIbanValue : List Char := "062960000000100324200001".data

/-- Sample upper-cased `IR`-prefixed IBAN handed to the validator. -/
def sampleIbanInput : List Char := "IR000000000000000000000000".data

theorem ibanLoop_sampleIbanInput (fuel : Nat) :
    ibanLoop fuel sampleIbanInput = none := by
  match fuel with
  | 0 => rfl
  | 1 => rfl
  | 2 => rfl
  | 3 => rfl
  | m + 4 =>
      rw [show ibanLoop (m + 4) sampleIbanInput =
        ibanLoop m ['N', 'a', 'N'] from rfl]
      exact ibanLoop_nan m

/-- C4: the block-reduction loop of `ibanISO7064Mod97Validator` does not
terminate on an upper-cased `IR`-prefixed input: `parseInt` of the leading
block is `NaN`, the remainder reaches the fixed point `"NaN"` (length 3),
and for every fuel the validator is still running. -/
theorem ibanValidator_diverges_on_ir (fuel : Nat) :
    ibanISO7064Mod97Validator sampleIbanInput fuel = none := by
  rw [ibanISO7064Mod97Validator, ibanLoop_sampleIbanInput fuel]

theorem ibanLoop_sampleIbanValue (fuel : Nat) :
    ibanLoop fuel (['I', 'R'] ++ sampleIbanValue.map Char.toUpper) = none := by
  match fuel with
  | 0 => rfl
  | 1 => rfl
  | 2 => rfl
  | 3 => rfl
  | m + 4 =>
      rw [show ibanLoop (m + 4) (['I', 'R'] ++ sampleIbanValue.map Char.toUpper) =
        ibanLoop m ['N', 'a', 'N'] from rfl]
      exact ibanLoop_nan m

/-- C3: the rule resolves on the empty value and rejects wrong lengths, but
on a well-formed 24-character value it neither resolves nor rejects for any
amount of fuel: the mod-97 computation it depends on never finishes. -/
theorem ibanRule_outcomes (fuel : Nat) :
    ibanRule [] fuel = some .resolve ∧
    ibanRule "0629600".data fuel = some .rejectLength ∧
    ibanRule sampleIbanValue fuel = none := by
  refine ⟨rfl, rfl, ?_⟩
  rw [show ibanRule sampleIbanValue fuel =
    (match ibanISO7064Mod97Validator
        (['I', 'R'] ++ sampleIbanValue.map Char.toUpper) fuel with
      | none => none
      | some ok =>
          some (if ok then IbanOutcome.resolve else IbanOutcome.rejectInvalid)) from rfl]
  rw [ibanISO7064Mod97Validator, ibanLoop_sampleIbanValue fuel]

/-!
## Initial-value read-only transformation (src/form.tsx,
`initializedWithDashIfEmpty`) and URL query synchronization
-/

/-- Model of `s.trim().length === 0`: the string has only whitespace
characters (so trimming leaves nothing). -/
def isWhitespaceOnly (s : String) : Bool :=
  s.data.all (fun c => c.isWhitespace)

mutual

/-- Recursive cleaning used for array-valued initial values: leaves that are
`null`, `undefined` or whitespace-only strings become `"-"`, arrays and
objects are cleaned element-wise. -/
def cleanedArray : JSVal → JSVal
  | .arr xs => .arr (cleanedArrayList xs)
  | .obj fs => .obj (cleanedArrayPairs fs)
  | .null => .str "-"
  | .undef => .str "-"
  | .str s => if isWhitespaceOnly s then .str "-" else .str s
  | v => v

/-- Element-wise cleaning of `data.map(cleanedArray)`. -/
def cleanedArrayList : List JSVal → List JSVal
  | [] => []
  | v :: vs => cleanedArray v :: cleanedArrayList vs

/-- Entry-wise cleaning of `Object.entries(data).map(([k, v]) => ...)`. -/
def cleanedArrayPairs : List (String × JSVal) → List (String × JSVal)
  | [] => []
  | (k, v) :: kvs => (k, cleanedArray v) :: cleanedArrayPairs kvs

end

theorem cleanedArrayList_eq_map (xs : List JSVal) :
    cleanedArrayList xs = xs.map cleanedArray := by
  induction xs with
  | nil => rw [cleanedArrayList, List.map_nil]
  | cons v vs ih => rw [cleanedArrayList, List.map_cons, ih]

/-- Transformation applied to a single initial value inside
`initializedWithDashIfEmpty`, given the effective read-only flag for its
field. -/
def transformEntry (isReadOnly : Bool) (value : JSVal) : JSVal :=
  let isEmptyArray := match value with
    | .arr [] => true
    | _ => false
  let isEmptyString := match value with
    | .str s => isWhitespaceOnly s
    | _ => false
  let isNullish := match value with
    | .null => true
    | .undef => true
    | _ => false
  if isReadOnly && (isEmptyString || isNullish) then .str "-"
  else if isReadOnly && isEmptyArray then .arr [.str "-"]
  else match value with
    | .arr xs => cleanedArray (.arr xs)
    | v => v

/-- Lookup `fieldsList(fields).find(f => f?.name === key)`. -/
def fieldLookup (fields : List FieldDesc) (key : String) : Option FieldDesc :=
  (fieldsList fields).find? (fun f => f.name == key)

/-- Per-entry body of the `Object.entries(initialValues ?? ...).map` in
`initializedWithDashIfEmpty`. -/
def initEntryTransform (fields : List FieldDesc) (readOnly : Bool)
    (kv : String × JSVal) : String × JSVal :=
  let currentField := fieldLookup fields kv.1
  let isReadOnly := (currentField.map FieldDesc.readOnly).getD false || readOnly
  (kv.1, transformEntry isReadOnly kv.2)

mutual

/-- JavaScript `String(value)` for the values that reach the query-parameter
merge (arrays join their elements with commas, objects print as
`[object Object]`). -/
def jsToString : JSVal → String
  | .undef => "undefined"
  | .null => "null"
  | .bool b => if b then "true" else "false"
  | .num n => toString n
  | .str s => s
  | .arr xs => String.intercalate "," (jsToStringList xs)
  | .obj _ => "[object Object]"

/-- Element-wise stringification of an array's members. -/
def jsToStringList : List JSVal → List String
  | [] => []
  | v :: vs => jsToString v :: jsToStringList vs

end

/-- Loose equality `value == null` (true for `null` and `undefined`). -/
def jsLooseNull : JSVal → Bool
  | .null => true
  | .undef => true
  | _ => false

/-- Body of the `Object.entries(getAllParams).forEach` merge in
`initializedWithDashIfEmpty`: skips empty values, values without a matching
field, and fields that are hidden, disabled or read-only; otherwise the
query value overwrites the initial value. -/
def queryMergeStep (fields : List FieldDesc) (readOnly disabled : Bool)
    (acc : List (String × JSVal)) (kv : String × JSVal) : List (String × JSVal) :=
  let isEmptyValue := isWhitespaceOnly (jsToString kv.2) || jsLooseNull kv.2
  if isEmptyValue then acc
  else
    match fieldLookup fields kv.1 with
    | none => acc
    | some currentField =>
        let isReadOnly := currentField.readOnly || readOnly
        let isHidden := currentField.hidden.jsTruthy
        let isDisabled := currentField.disabled.jsTruthy || disabled
        if isHidden || isDisabled || isReadOnly then acc
        else objSet acc kv.1 kv.2

/-- Embedding of `initializedWithDashIfEmpty` from `FormBuilder`;
`initialValues = none` models an absent `initialValues` prop, and
`getAllParams` is the current URL query-parameter object. -/
def initializedWithDashIfEmpty
    (initialValues : Option (List (String × JSVal))) (fields : List FieldDesc)
    (readOnly disabled autoSyncWithQueryParams : Bool)
    (getAllParams : List (String × JSVal)) : Option (List (String × JSVal)) :=
  if initialValues.isNone && !autoSyncWithQueryParams then initialValues
  else
    let base := (initialValues.getD []).map (initEntryTransform fields readOnly)
    some (if autoSyncWithQueryParams then
        getAllParams.foldl (queryMergeStep fields readOnly disabled) base
      else base)

/-- C7 counterexample: with neither the form nor the field read-only, an
array initial value containing `null` is not passed through unchanged — its
nullish element is replaced with `"-"`. -/
theorem initializedWithDash_changes_arrays :
    initializedWithDashIfEmpty (some [("a", JSVal.arr [JSVal.null])])
        [FieldDesc.mk "a" false .undef .undef false []] false false false [] =
      some [("a", JSVal.arr [JSVal.str "-"])] ∧
    JSVal.arr [JSVal.str "-"] ≠ JSVal.arr [JSVal.null] := by
  refine ⟨?_, by simp⟩
  simp [initializedWithDashIfEmpty, initEntryTransform, fieldLookup, fieldsList,
    List.find?, transformEntry, cleanedArray, cleanedArrayList, FieldDesc.name,
    FieldDesc.readOnly]

/-- C7 amended: read-only nullish / whitespace-only values become `"-"` and
read-only empty arrays become `["-"]`; without read-only, non-array values
pass through unchanged, while every array value (also a read-only non-empty
one) is recursively cleaned, replacing nullish or whitespace-only leaves at
any depth with `"-"` and keeping other leaves. -/
theorem initializedWithDash_amended
    (entries : List (String × JSVal)) (fields : List FieldDesc)
    (readOnly disabled : Bool) (v : JSVal) (s : String) (xs : List JSVal) :
    initializedWithDashIfEmpty (some entries) fields readOnly disabled false [] =
      some (entries.map (initEntryTransform fields readOnly)) ∧
    ((v = .null ∨ v = .undef ∨ (∃ t, v = .str t ∧ isWhitespaceOnly t = true)) →
      transformEntry true v = .str "-") ∧
    transformEntry true (.arr []) = .arr [.str "-"] ∧
    ((∀ ys, v ≠ .arr ys) → transformEntry false v = v) ∧
    transformEntry false (.arr xs) = cleanedArray (.arr xs) ∧
    (xs ≠ [] → transformEntry true (.arr xs) = cleanedArray (.arr xs)) ∧
    cleanedArray .null = .str "-" ∧
    cleanedArray .undef = .str "-" ∧
    cleanedArray (.str s) = (if isWhitespaceOnly s then .str "-" else .str s) ∧
    cleanedArray (.arr xs) = .arr (xs.map cleanedArray) := by
  refine ⟨rfl, ?_, rfl, ?_, rfl, ?_, by rw [cleanedArray], by rw [cleanedArray],
    by rw [cleanedArray], by rw [cleanedArray, cleanedArrayList_eq_map]⟩
  · rintro (rfl | rfl | ⟨t, rfl, ht⟩)
    · rfl
    · rfl
    · simp [transformEntry, ht]
  · intro hne
    cases v with
    | arr ys => exact absurd rfl (hne ys)
    | undef => rfl
    | null => rfl
    | bool b => rfl
    | num n => rfl
    | str t => simp [transformEntry]
    | obj fs => rfl
  · intro hne
    cases xs with
    | nil => exact absurd rfl hne
    | cons y ys => rfl

/-- C7 amended witness: the hypotheses of `initializedWithDash_amended`
discharged at concrete values. -/
theorem initializedWithDash_amended_witness :
    transformEntry true JSVal.null = JSVal.str "-" ∧
    transformEntry false (JSVal.num 5) = JSVal.num 5 ∧
    transformEntry true (JSVal.arr [JSVal.null]) =
      cleanedArray (JSVal.arr [JSVal.null]) := by
  have h := initializedWithDash_amended [] [] false false JSVal.null "x" [JSVal.null]
  have h' := initializedWithDash_amended [] [] false false (JSVal.num 5) "x" [JSVal.null]
  exact ⟨h.2.1 (Or.inl rfl), h'.2.2.2.1 (by intro ys h; cases h),
    h.2.2.2.2.2.1 (by simp)⟩

/-!
## URL query-parameter synchronization effects (src/form.tsx, `FormBuilder`)
-/

/-- Effect of a submit or reset on the URL query parameters: either no call,
a `updateParams` call with the given payload, or a `removeAllParams` call. -/
inductive QueryEffect where
  | noEffect : QueryEffect
  | update (params : List (String × JSVal)) : QueryEffect
  | removeAll : QueryEffect

/-- Predicate selecting the fields whose submitted values are written to the
URL: `!f.disabled && !f.readOnly && !f.hidden` with JavaScript truthiness. -/
def isSyncableField (f : FieldDesc) : Bool :=
  !f.disabled.jsTruthy && !f.readOnly && !f.hidden.jsTruthy

/-- Body of the `reduce` building `fieldsParam` in `handleSubmit`:
`acc[String(f.name)] = fieldsValue[fieldName]` (an absent submitted value
stores `undefined`). -/
def fieldsParamStep (fieldsValue : List (String × JSVal))
    (acc : List (String × JSVal)) (f : FieldDesc) : List (String × JSVal) :=
  objSet acc f.name ((objGet fieldsValue f.name).getD JSVal.undef)

/-- Query-parameter effect of a submit in `handleSubmit`: when
`autoSyncWithQueryParams` is set and the form is neither disabled nor
read-only, `updateParams` receives the values of the syncable fields;
otherwise the URL is untouched. -/
def submitQueryEffect (autoSyncWithQueryParams disabled readOnly : Bool)
    (fields : List FieldDesc) (fieldsValue : List (String × JSVal)) : QueryEffect :=
  if autoSyncWithQueryParams && !disabled && !readOnly then
    .update (((fieldsList fields).filter isSyncableField).foldl
      (fieldsParamStep fieldsValue) [])
  else .noEffect

/-- Query-parameter effect of the reset button's `onClick`. -/
def resetQueryEffect (autoSyncWithQueryParams disabled readOnly : Bool) : QueryEffect :=
  if autoSyncWithQueryParams && !disabled && !readOnly then .removeAll
  else .noEffect

theorem foldl_fieldsParamStep_get (fieldsValue : List (String × JSVal))
    (fieldsL : List FieldDesc) :
    ∀ (acc : List (String × JSVal)) (k : String),
      objGet (fieldsL.foldl (fieldsParamStep fieldsValue) acc) k =
        if fieldsL.any (fun f => f.name == k)
        then some ((objGet fieldsValue k).getD JSVal.undef)
        else objGet acc k := by
  induction fieldsL with
  | nil => intro acc k; simp
  | cons f fs ih =>
      intro acc k
      rw [List.foldl_cons, ih]
      by_cases hany : fs.any (fun f => f.name == k)
      · rw [if_pos hany, if_pos (by simp_all)]
      · rw [if_neg hany]
        by_cases hk : f.name = k
        · subst hk
          rw [if_pos (by simp)]
          unfold fieldsParamStep
          rw [objGet_objSet_self]
        · rw [if_neg (by simp_all)]
          unfold fieldsParamStep
          rw [objGet_objSet_other acc f.name k _ hk]

/-- C6 counterexample: a field whose `disabled` attribute is a
function-valued (dynamic) predicate is not statically disabled, is not
read-only and is not hidden, yet submit synchronization drops it: the
params written to the URL are empty instead of containing its submitted
value. -/
theorem submitQueryEffect_dynamic_disabled :
    submitQueryEffect true false false
        [FieldDesc.mk "a" false .fn .undef false []] [("a", JSVal.str "1")] =
      QueryEffect.update [] ∧
    FieldFlag.staticTrue (FieldDesc.disabled
      (FieldDesc.mk "a" false .fn .undef false [])) = false ∧
    FieldDesc.readOnly (FieldDesc.mk "a" false .fn .undef false []) = false ∧
    FieldFlag.staticTrue (FieldDesc.hidden
      (FieldDesc.mk "a" false .fn .undef false [])) = false ∧
    objGet [] "a" = none := by
  refine ⟨?_, rfl, rfl, rfl, rfl⟩
  simp [submitQueryEffect, fieldsList, isSyncableField, FieldDesc.disabled,
    FieldFlag.jsTruthy, List.filter]

/-- C6 amended: URL synchronization happens only when
`autoSyncWithQueryParams` is set and the form is neither disabled nor
read-only; under that condition reset removes all query parameters and
submit writes exactly the submitted values of the fields whose `disabled`
and `hidden` attributes are not truthy (a function-valued predicate counts
as truthy and excludes the field) and that are not read-only; otherwise
neither submit nor reset touches the URL. -/
theorem queryParamsSync_correct (autoSync disabled readOnly : Bool)
    (fields : List FieldDesc) (fieldsValue : List (String × JSVal)) :
    ((autoSync && !disabled && !readOnly) = false →
      submitQueryEffect autoSync disabled readOnly fields fieldsValue = .noEffect ∧
      resetQueryEffect autoSync disabled readOnly = .noEffect) ∧
    ((autoSync && !disabled && !readOnly) = true →
      resetQueryEffect autoSync disabled readOnly = .removeAll ∧
      ∃ ps, submitQueryEffect autoSync disabled readOnly fields fieldsValue =
          .update ps ∧
        ∀ k, objGet ps k =
          if (fieldsList fields).any (fun f => isSyncableField f && f.name == k)
          then some ((objGet fieldsValue k).getD JSVal.undef)
          else none) := by
  constructor
  · intro h
    constructor <;> simp [submitQueryEffect, resetQueryEffect, h]
  · intro h
    refine ⟨by simp [resetQueryEffect, h],
      ((fieldsList fields).filter isSyncableField).foldl (fieldsParamStep fieldsValue) [],
      by simp [submitQueryEffect, h], ?_⟩
    intro k
    rw [foldl_fieldsParamStep_get]
    congr 1
    simp [List.any_filter, Bool.and_comm]

/-- C6 amended witness: both guards of `queryParamsSync_correct` discharged
at concrete inputs. -/
theorem queryParamsSync_correct_witness :
    submitQueryEffect false false false [] [] = .noEffect ∧
    resetQueryEffect true false false = .removeAll := by
  have h := queryParamsSync_correct false false false [] []
  have h' := queryParamsSync_correct true false false [] []
  exact ⟨(h.1 (by decide)).1, (h'.2 (by decide)).1⟩

end RefForm
